import Mathlib

/-!
Verification of the NLP chatbot matching pipeline.

This file gives a shallow embedding of the pipeline implemented in
`nlp_utils.py`, `main.py` and `kb.py`:

* tokenization (`simple_tokenize`, modelling the regex split on runs of
  non-word characters followed by removal of empty fragments, over ASCII),
* token normalization with the all-stopword recovery (`normalize_tokens`),
* full preprocessing (`preprocess`),
* vocabulary construction (`build_vocab`; a Python insertion-ordered dict
  whose value is always the dict size at insertion time is represented as
  the ordered list of its keys, the index of a token being its position),
* bag-of-words vectorization (`to_vector`),
* cosine similarity over exact reals (`cosine_sim`; Python floats are
  idealized as real numbers),
* the best-match scan with thresholding (`scanFrom`, `bestScan`,
  `find_best_answer`, modelling lines 34-46 of `main.py`; the function
  returns the matched index rather than the answer string `KB[i][1]`,
  following the contract of spec section 4.4),
* intent detection (`detect_intent` with the trigger lists `GREETINGS`,
  `GOODBYES`, `THANKS`).

The Python module-level configuration (the stopword set and the optional
lemmatizer, both empty/absent when NLTK is unavailable) is passed as
explicit parameters `sw : List String` and `lem : Option (String → String)`.
-/

namespace Chatbot

/-- A word character in the sense of the regex `\W` used by
`simple_tokenize` and `detect_intent`: letters, digits or underscore
(ASCII model of the Python character class). -/
def isWordChar (c : Char) : Bool := c.isAlphanum || c == '_'

/-- Splits a character list into the maximal runs of characters satisfying
`p`, accumulating the current run in `acc` (in reverse). This models
`re.split` on the complement of `p` composed with the removal of empty
fragments, which is how both `simple_tokenize` and `detect_intent`
consume the split. -/
def splitRunsAux (p : Char → Bool) : List Char → List Char → List String
  | [], acc => if acc = [] then [] else [String.mk acc.reverse]
  | c :: cs, acc =>
    if p c then splitRunsAux p cs (c :: acc)
    else if acc = [] then splitRunsAux p cs []
    else String.mk acc.reverse :: splitRunsAux p cs []

/-- All maximal runs of characters satisfying `p`. -/
def splitRuns (p : Char → Bool) (cs : List Char) : List String :=
  splitRunsAux p cs []

/-- `simple_tokenize` from `nlp_utils.py` (lines 52-65): lowercase the
text, split on runs of non-word characters, drop empty fragments. -/
def simple_tokenize (text : String) : List String :=
  splitRuns isWordChar (text.toList.map Char.toLower)

/-- Application of the optional lemmatizer: `lemmatizer.lemmatize(t)` when a
lemmatizer is available, the token unchanged otherwise. The `try/except`
fallback of the source keeps the token on an exception raised by the
external library; a lemmatizer is modelled as a total function, so this
branch has no counterpart. -/
def applyLem (lem : Option (String → String)) (t : String) : String :=
  match lem with
  | some f => f t
  | none => t

/-- One iteration of the loop of `normalize_tokens` (lines 85-98):
`acc.1` is `out`, `acc.2` is `all_stopwords`. -/
def normStep (sw : List String) (lem : Option (String → String))
    (acc : List String × List String) (t : String) : List String × List String :=
  if t = "" then acc
  else if t ∈ sw then (acc.1, acc.2 ++ [t])
  else (acc.1 ++ [applyLem lem t], acc.2)

/-- The completed loop of `normalize_tokens`: the final pair
`(out, all_stopwords)`. -/
def normPass (sw : List String) (lem : Option (String → String))
    (tokens : List String) : List String × List String :=
  tokens.foldl (normStep sw lem) ([], [])

/-- `normalize_tokens` from `nlp_utils.py` (lines 68-113): removes
stopwords, lemmatizes when possible, and when every token was filtered as
a stopword recovers by keeping the first stopword (lemmatized if
possible). -/
def normalize_tokens (sw : List String) (lem : Option (String → String))
    (tokens : List String) : List String :=
  if tokens = [] then []
  else if (normPass sw lem tokens).1 = [] ∧ (normPass sw lem tokens).2 ≠ [] then
    [applyLem lem ((normPass sw lem tokens).2.headD "")]
  else (normPass sw lem tokens).1

/-- `preprocess` from `nlp_utils.py` (lines 116-136), on the fallback
tokenization path (NLTK unavailable; the richer tokenizer is a pluggable
strategy per spec section 4.1 that degrades to exactly this splitting). -/
def preprocess (sw : List String) (lem : Option (String → String))
    (text : String) : List String :=
  normalize_tokens sw lem (simple_tokenize text)

/-- One insertion step of `build_vocab` (line 153-155): a non-empty token
not yet present is appended (its index is the current size). -/
def addToken (v : List String) (token : String) : List String :=
  if token ≠ "" ∧ token ∉ v then v ++ [token] else v

/-- One document step of `build_vocab` (lines 150-155); empty documents
are skipped. -/
def addDoc (v : List String) (doc : List String) : List String :=
  if doc = [] then v else doc.foldl addToken v

/-- `build_vocab` from `nlp_utils.py` (lines 139-156). The Python
insertion-ordered dict `{token: index}` where each value equals the dict
size at insertion is represented by the ordered list of its keys: the
index of a token is its position in the list. -/
def build_vocab (documents : List (List String)) : List String :=
  documents.foldl addDoc []

/-- One step of first-seen deduplication: append a token not yet seen. -/
def seenStep (acc : List String) (t : String) : List String :=
  if t ∈ acc then acc else acc ++ [t]

/-- First-seen deduplication, the order discipline the spec prescribes
for the vocabulary ("assigned in first-seen order"). Stated from the
the words of the spec, to be compared with `build_vocab`. -/
def firstSeen (l : List String) : List String :=
  l.foldl seenStep []

/-- `to_vector` from `nlp_utils.py` (lines 159-176): bag-of-words counts
over the vocabulary. -/
def to_vector (tokens : List String) (vocab : List String) : List ℕ :=
  if vocab = [] then []
  else tokens.foldl
    (fun vec t =>
      if t ∈ vocab then vec.set (vocab.indexOf t) (vec.getD (vocab.indexOf t) 0 + 1)
      else vec)
    (List.replicate vocab.length 0)

/-- `cosine_sim` from `nlp_utils.py` (lines 179-201), with Python floats
idealized as real numbers. The source computes `dot`, `na`, `nb` before
the zero-norm guard; all are pure, so computing `dot` after the guard is
equivalent. -/
noncomputable def cosine_sim (a b : List ℝ) : ℝ :=
  if a = [] ∨ b = [] then 0
  else if a.length ≠ b.length then 0
  else if Real.sqrt ((a.map fun x => x * x).sum) = 0 ∨
          Real.sqrt ((b.map fun y => y * y).sum) = 0 then 0
  else ((a.zip b).map fun p => p.1 * p.2).sum /
    (Real.sqrt ((a.map fun x => x * x).sum) * Real.sqrt ((b.map fun y => y * y).sum))

/-- The `for i, kb_vec in enumerate(KB_vectors)` loop of
`find_best_answer` (`main.py` lines 37-41): `i` is the index of the head
of `kbs`, `acc` is the pair `(best_idx, best_score)`. -/
noncomputable def scanFrom (q : List ℝ) :
    List (List ℝ) → ℕ → Option ℕ × ℝ → Option ℕ × ℝ
  | [], _, acc => acc
  | v :: vs, i, acc =>
    scanFrom q vs (i + 1)
      (if acc.2 < cosine_sim q v then (some i, cosine_sim q v) else acc)

/-- The completed scan of `main.py` lines 34-41, started from
`best_idx = None`, `best_score = 0.0`. -/
noncomputable def bestScan (q : List ℝ) (kbs : List (List ℝ)) : Option ℕ × ℝ :=
  scanFrom q kbs 0 (none, 0)

/-- The selection and thresholding of `find_best_answer` (`main.py`
lines 34-46): the matched index is returned in place of the answer string
`KB[best_idx][1]`, per the contract of spec section 4.4. -/
noncomputable def find_best_answer (q : List ℝ) (kbs : List (List ℝ))
    (threshold : ℝ) : Option ℕ × ℝ :=
  let best := bestScan q kbs
  if threshold ≤ best.2 ∧ best.1 ≠ none then best else (none, best.2)

/-- Greeting trigger phrases (`nlp_utils.py` line 205). -/
def GREETINGS : List String :=
  ["hi", "hello", "hey", "good morning", "good afternoon", "good evening"]

/-- Goodbye trigger phrases (`nlp_utils.py` line 206). -/
def GOODBYES : List String :=
  ["bye", "goodbye", "see you", "exit", "quit", "farewell"]

/-- Thanks trigger phrases (`nlp_utils.py` line 207). -/
def THANKS : List String :=
  ["thanks", "thank you", "thx", "thank", "appreciate"]

/-- `b` starts with `a` (character lists). -/
def startsWith : List Char → List Char → Bool
  | [], _ => true
  | _ :: _, [] => false
  | a :: as, b :: bs => a == b && startsWith as bs

/-- `p` occurs as a contiguous substring of `s`, the Python `p in s`
test on strings. -/
def substrB : List Char → List Char → Bool
  | p, [] => startsWith p []
  | p, c :: rest => startsWith p (c :: rest) || substrB p rest

/-- A non-whitespace character; `str.split()` with no argument splits on
runs of whitespace, i.e. keeps the maximal runs of these. -/
def notWhitespace (c : Char) : Bool := !c.isWhitespace

/-- `text.lower().strip()` over the character list: trims whitespace from
both ends. -/
def trimChars (cs : List Char) : List Char :=
  ((cs.dropWhile Char.isWhitespace).reverse.dropWhile Char.isWhitespace).reverse

/-- The per-phrase match test of `detect_intent` (`nlp_utils.py` lines
233-259): a multi-word phrase matches when all its words occur in the
word set of the input or the phrase occurs as a substring of the trimmed
lowercased input `t`; a single-word phrase matches only when it occurs as
a whole token of the word split. -/
def phraseMatches (words : List String) (t : List Char) (g : String) : Bool :=
  if g.toList.contains ' ' then
    (splitRuns notWhitespace g.toList).all (fun w => words.contains w) || substrB g.toList t
  else words.contains g

/-- The trimmed lowercased input `t = text.lower().strip()` of
`detect_intent`. -/
def intentChars (text : String) : List Char :=
  trimChars (text.toList.map Char.toLower)

/-- The word set `words = set(re.split(r"\W+", t)) - {""}` of
`detect_intent`; a list models the set, only membership is consumed. -/
def intentWords (text : String) : List String :=
  splitRuns isWordChar (intentChars text)

/-- `detect_intent` from `nlp_utils.py` (lines 210-261): greeting triggers
are checked before goodbye triggers before thanks triggers; the first
matching category is returned. -/
def detect_intent (text : String) : Option String :=
  let t := intentChars text
  if t = [] then none
  else
    let words := intentWords text
    if GREETINGS.any (phraseMatches words t) then some "greeting"
    else if GOODBYES.any (phraseMatches words t) then some "goodbye"
    else if THANKS.any (phraseMatches words t) then some "thanks"
    else none

end Chatbot

namespace Chatbot

/-! ### Lemmas about the best-match scan -/

/-- A scan over vectors none of which beats the accumulated best score
leaves the accumulator unchanged. -/
theorem scanFrom_no_update (q : List ℝ) (vs : List (List ℝ)) :
    ∀ (i : ℕ) (acc : Option ℕ × ℝ), (∀ v ∈ vs, cosine_sim q v ≤ acc.2) →
    scanFrom q vs i acc = acc := by
  induction vs with
  | nil => intro i acc _; rfl
  | cons v vs ih =>
    intro i acc h
    have hv : cosine_sim q v ≤ acc.2 := h v (by simp)
    simp only [scanFrom, if_neg (not_lt.mpr hv)]
    exact ih (i + 1) acc fun v' hv' => h v' (by simp [hv'])

/-- A scan that ends with no best index never updated the accumulator. -/
theorem scanFrom_of_none (q : List ℝ) (vs : List (List ℝ)) :
    ∀ (i : ℕ) (acc : Option ℕ × ℝ), (scanFrom q vs i acc).1 = none →
    scanFrom q vs i acc = acc := by
  induction vs with
  | nil => intro i acc _; rfl
  | cons v vs ih =>
    intro i acc h
    by_cases hc : acc.2 < cosine_sim q v
    · exfalso
      simp only [scanFrom, if_pos hc] at h
      have heq := ih (i + 1) (some i, cosine_sim q v) h
      rw [heq] at h
      exact Option.some_ne_none i h
    · simp only [scanFrom, if_neg hc] at h ⊢
      exact ih (i + 1) acc h

/-- If entry `k` strictly beats the accumulator, is maximal among all
entries, and strictly dominates every earlier entry, the scan ends at
index `i0 + k` with the score of entry `k`. -/
theorem scanFrom_argmax (q : List ℝ) (vs : List (List ℝ)) :
    ∀ (i0 k : ℕ) (hk : k < vs.length) (acc : Option ℕ × ℝ),
    acc.2 < cosine_sim q (vs.get ⟨k, hk⟩) →
    (∀ (j : ℕ) (hj : j < vs.length),
      cosine_sim q (vs.get ⟨j, hj⟩) ≤ cosine_sim q (vs.get ⟨k, hk⟩)) →
    (∀ (j : ℕ) (hj : j < vs.length), j < k →
      cosine_sim q (vs.get ⟨j, hj⟩) < cosine_sim q (vs.get ⟨k, hk⟩)) →
    scanFrom q vs i0 acc = (some (i0 + k), cosine_sim q (vs.get ⟨k, hk⟩)) := by
  induction vs with
  | nil => intro i0 k hk; exact absurd hk (by simp)
  | cons v vs ih =>
    intro i0 k hk acc hacc hmax hearlier
    match k with
    | 0 =>
      have hacc0 : acc.2 < cosine_sim q v := hacc
      have hle : ∀ v' ∈ vs, cosine_sim q v' ≤ (some i0, cosine_sim q v).2 := by
        intro v' hv'
        obtain ⟨j, rfl⟩ := List.mem_iff_get.mp hv'
        exact hmax (j.1 + 1) (Nat.succ_lt_succ j.isLt)
      simp only [scanFrom, if_pos hacc0]
      rw [scanFrom_no_update q vs (i0 + 1) (some i0, cosine_sim q v) hle]
      rfl
    | k' + 1 =>
      have hk' : k' < vs.length := Nat.lt_of_succ_lt_succ hk
      have h0 : cosine_sim q v < cosine_sim q (vs.get ⟨k', hk'⟩) :=
        hearlier 0 (Nat.succ_pos _) (Nat.succ_pos k')
      simp only [scanFrom]
      have step :
          scanFrom q vs (i0 + 1)
            (if acc.2 < cosine_sim q v then (some i0, cosine_sim q v) else acc) =
          (some (i0 + 1 + k'), cosine_sim q (vs.get ⟨k', hk'⟩)) := by
        apply ih (i0 + 1) k' hk'
        · by_cases hc : acc.2 < cosine_sim q v
          · simpa [if_pos hc] using h0
          · simp only [if_neg hc]
            exact hacc
        · intro j hj
          exact hmax (j + 1) (Nat.succ_lt_succ hj)
        · intro j hj hjk
          exact hearlier (j + 1) (Nat.succ_lt_succ hj) (Nat.succ_lt_succ hjk)
      rw [step]
      have harith : i0 + 1 + k' = i0 + (k' + 1) := by omega
      rw [harith]
      rfl

/-- C1 helper: a positive final best score forces a best index. -/
theorem bestScan_fst_of_pos (q : List ℝ) (kbs : List (List ℝ))
    (h : 0 < (bestScan q kbs).2) : (bestScan q kbs).1 ≠ none := by
  intro hnone
  have heq := scanFrom_of_none q kbs 0 (none, 0) hnone
  rw [bestScan] at h
  rw [heq] at h
  exact lt_irrefl 0 h

/-- C1: for a positive confidence threshold (the default is 0.2), the
scan of `main.py` lines 34-46 returns a knowledge-base entry exactly when
the best similarity score is greater than or equal to the threshold — a
score exactly equal to the threshold matches — and otherwise returns the
no-match marker; either way the returned score is the best score found,
even when that score is 0.0. -/
theorem find_best_answer_threshold (q : List ℝ) (kbs : List (List ℝ))
    (θ : ℝ) (hθ : 0 < θ) :
    ((find_best_answer q kbs θ).1 ≠ none ↔ θ ≤ (bestScan q kbs).2) ∧
    (find_best_answer q kbs θ).2 = (bestScan q kbs).2 := by
  refine ⟨⟨fun h => ?_, fun h => ?_⟩, ?_⟩
  · by_cases hc : θ ≤ (bestScan q kbs).2 ∧ (bestScan q kbs).1 ≠ none
    · exact hc.1
    · exact absurd (by simp [find_best_answer, if_neg hc]) h
  · have hne : (bestScan q kbs).1 ≠ none :=
      bestScan_fst_of_pos q kbs (lt_of_lt_of_le hθ h)
    simpa [find_best_answer, if_pos (And.intro h hne)] using hne
  · by_cases hc : θ ≤ (bestScan q kbs).2 ∧ (bestScan q kbs).1 ≠ none
    · simp [find_best_answer, if_pos hc]
    · simp [find_best_answer, if_neg hc]

/-- Concrete evaluation: two identical one-dimensional unit vectors have
cosine similarity 1. -/
theorem cosine_sim_one_one : cosine_sim [(1 : ℝ)] [(1 : ℝ)] = 1 := by
  rw [cosine_sim]
  norm_num

/-- Concrete evaluation: against the zero vector the similarity is 0. -/
theorem cosine_sim_one_zero : cosine_sim [(1 : ℝ)] [(0 : ℝ)] = 0 := by
  rw [cosine_sim]
  norm_num

/-- C1 witness at the default threshold 0.2, query vector `[1]` and a
single knowledge-base vector `[1]`. -/
theorem find_best_answer_threshold_witness :
    (0 : ℝ) < 0.2 ∧
    (((find_best_answer [(1 : ℝ)] [[(1 : ℝ)]] 0.2).1 ≠ none ↔
      (0.2 : ℝ) ≤ (bestScan [(1 : ℝ)] [[(1 : ℝ)]]).2) ∧
     (find_best_answer [(1 : ℝ)] [[(1 : ℝ)]] 0.2).2 =
      (bestScan [(1 : ℝ)] [[(1 : ℝ)]]).2) :=
  ⟨by norm_num, find_best_answer_threshold [(1 : ℝ)] [[(1 : ℝ)]] 0.2 (by norm_num)⟩

/-- C2: the scan updates the running best only on a strictly greater
score, so whenever entry `i` attains the maximal score, with every
earlier entry strictly below it (in particular whenever later entries tie
with entry `i`), the scan returns entry `i` — the earliest-declared entry
attaining the maximum — together with its score. The positivity
hypothesis reflects that an entry is only ever returned on a strictly
positive best score (main.py lines 34-41). -/
theorem bestScan_earliest_max (q : List ℝ) (kbs : List (List ℝ)) (i : ℕ)
    (hi : i < kbs.length)
    (hpos : 0 < cosine_sim q (kbs.get ⟨i, hi⟩))
    (hmax : ∀ (j : ℕ) (hj : j < kbs.length),
      cosine_sim q (kbs.get ⟨j, hj⟩) ≤ cosine_sim q (kbs.get ⟨i, hi⟩))
    (hearlier : ∀ (j : ℕ) (hj : j < kbs.length), j < i →
      cosine_sim q (kbs.get ⟨j, hj⟩) < cosine_sim q (kbs.get ⟨i, hi⟩)) :
    bestScan q kbs = (some i, cosine_sim q (kbs.get ⟨i, hi⟩)) := by
  rw [bestScan]
  have h := scanFrom_argmax q kbs 0 i hi (none, 0) hpos hmax hearlier
  simpa using h

/-- C2 witness: query `[1]` against two identical knowledge-base vectors
`[1]` and `[1]` — a tie at the maximal score 1 — returns index 0, the
earliest-declared entry. -/
theorem bestScan_earliest_max_witness :
    0 < cosine_sim [(1 : ℝ)] [(1 : ℝ)] ∧
    bestScan [(1 : ℝ)] [[(1 : ℝ)], [(1 : ℝ)]] = (some 0, cosine_sim [(1 : ℝ)] [(1 : ℝ)]) := by
  have hpos : 0 < cosine_sim [(1 : ℝ)] [(1 : ℝ)] := by
    rw [cosine_sim_one_one]; norm_num
  refine ⟨hpos, ?_⟩
  have hlen : 0 < ([[(1 : ℝ)], [(1 : ℝ)]] : List (List ℝ)).length := by norm_num
  exact bestScan_earliest_max [(1 : ℝ)] [[(1 : ℝ)], [(1 : ℝ)]] 0 hlen hpos
    (fun j hj => by
      match j, hj with
      | 0, _ => exact le_refl _
      | 1, _ => exact le_refl _)
    (fun j hj hj0 => absurd hj0 (Nat.not_lt_zero j))

/-- C10: when every knowledge-base vector has similarity 0.0 to the
query, the scan never sets a best index (it only updates on a strictly
greater score than the running 0.0), so `find_best_answer` returns the
no-match marker paired with score 0.0 for every threshold value,
including a threshold of 0.0. -/
theorem find_best_answer_all_zero (q : List ℝ) (kbs : List (List ℝ))
    (θ : ℝ) (h : ∀ v ∈ kbs, cosine_sim q v = 0) :
    find_best_answer q kbs θ = (none, 0) := by
  have hscan : bestScan q kbs = (none, 0) :=
    scanFrom_no_update q kbs 0 (none, 0) fun v hv => le_of_eq (h v hv)
  simp [find_best_answer, hscan]

/-- C10 witness: the query `[1]` is orthogonal in effect to the zero
knowledge-base vector `[0]`; even at threshold 0.0 no entry is
returned. -/
theorem find_best_answer_all_zero_witness :
    (∀ v ∈ [[(0 : ℝ)]], cosine_sim [(1 : ℝ)] v = 0) ∧
    find_best_answer [(1 : ℝ)] [[(0 : ℝ)]] 0 = (none, 0) := by
  have h : ∀ v ∈ [[(0 : ℝ)]], cosine_sim [(1 : ℝ)] v = 0 := by
    intro v hv
    rw [List.mem_singleton] at hv
    rw [hv]
    exact cosine_sim_one_zero
  exact ⟨h, find_best_answer_all_zero [(1 : ℝ)] [[(0 : ℝ)]] 0 h⟩

/-! ### Lemmas about cosine similarity -/

/-- Members of a zip come from the two lists. -/
theorem mem_of_mem_zip {α β : Type} : ∀ {a : List α} {b : List β} {p : α × β},
    p ∈ a.zip b → p.1 ∈ a ∧ p.2 ∈ b := by
  intro a
  induction a with
  | nil => intro b p hp; simp [List.zip] at hp
  | cons x xs ih =>
    intro b p hp
    match b with
    | [] => simp [List.zip] at hp
    | y :: ys =>
      rw [List.zip_cons_cons, List.mem_cons] at hp
      rcases hp with hp | hp
      · rw [hp]
        exact ⟨List.mem_cons_self x xs, List.mem_cons_self y ys⟩
      · obtain ⟨h1, h2⟩ := ih hp
        exact ⟨List.mem_cons_of_mem x h1, List.mem_cons_of_mem y h2⟩

/-- The sum of squares of a real list is non-negative. -/
theorem sum_sq_nonneg (l : List ℝ) : 0 ≤ (l.map fun x => x * x).sum := by
  apply List.sum_nonneg
  intro z hz
  obtain ⟨y, _, rfl⟩ := List.mem_map.mp hz
  exact mul_self_nonneg y

/-- Cauchy-Schwarz for the zipwise dot product of two real lists. -/
theorem list_cauchy_schwarz : ∀ (a b : List ℝ),
    (((a.zip b).map fun p => p.1 * p.2).sum) ^ 2 ≤
    ((a.map fun x => x * x).sum) * ((b.map fun y => y * y).sum) := by
  intro a
  induction a with
  | nil => intro b; simp
  | cons x xs ih =>
    intro b
    match b with
    | [] => simp
    | y :: ys =>
      have h := ih ys
      have hA : 0 ≤ (xs.map fun x => x * x).sum := sum_sq_nonneg xs
      have hB : 0 ≤ (ys.map fun y => y * y).sum := sum_sq_nonneg ys
      simp only [List.zip_cons_cons, List.map_cons, List.sum_cons]
      set S := ((xs.zip ys).map fun p => p.1 * p.2).sum with hS
      set A := (xs.map fun x => x * x).sum with hA'
      set B := (ys.map fun y => y * y).sum with hB'
      have hg : 0 ≤ A * B - S ^ 2 := by linarith
      rcases eq_or_lt_of_le hA with hA0 | hA0
      · have hS2 : S ^ 2 ≤ 0 := by
          rw [← hA0] at h
          linarith [h]
        have hS0 : S = 0 := by
          have h20 : S ^ 2 = 0 := le_antisymm hS2 (sq_nonneg S)
          exact (pow_eq_zero_iff (by norm_num : (2 : ℕ) ≠ 0)).mp h20
        rw [hS0, ← hA0]
        nlinarith [mul_nonneg (mul_self_nonneg x) hB, mul_self_nonneg y, mul_self_nonneg x]
      · nlinarith [sq_nonneg (x * S - A * y), mul_nonneg (mul_self_nonneg x) hg,
          mul_nonneg (le_of_lt hA0) hg]

/-- C3: `cosine_sim` is total and its division is guarded — whenever
either vector is empty, the lengths differ, or either vector has zero
Euclidean norm, the result is exactly 0.0, produced by an early guard
before the division, so no division by zero occurs (and, floats being
idealized as reals, no NaN exists in the model). -/
theorem cosine_sim_degenerate (a b : List ℝ)
    (h : a = [] ∨ b = [] ∨ a.length ≠ b.length ∨
      Real.sqrt ((a.map fun x => x * x).sum) = 0 ∨
      Real.sqrt ((b.map fun y => y * y).sum) = 0) :
    cosine_sim a b = 0 := by
  rw [cosine_sim]
  split_ifs with h1 h2 h3
  · rfl
  · rfl
  · rfl
  · exfalso
    push_neg at h1 h3
    rcases h with h | h | h | h | h
    · exact h1.1 h
    · exact h1.2 h
    · exact h2 h
    · exact h3.1 h
    · exact h3.2 h

/-- C3 witness: the empty vector against `[1]`. -/
theorem cosine_sim_degenerate_witness :
    (([] : List ℝ) = [] ∨ [(1 : ℝ)] = [] ∨
      ([] : List ℝ).length ≠ [(1 : ℝ)].length ∨
      Real.sqrt ((([] : List ℝ).map fun x => x * x).sum) = 0 ∨
      Real.sqrt (([(1 : ℝ)].map fun y => y * y).sum) = 0) ∧
    cosine_sim ([] : List ℝ) [(1 : ℝ)] = 0 :=
  ⟨Or.inl rfl, cosine_sim_degenerate ([] : List ℝ) [(1 : ℝ)] (Or.inl rfl)⟩

/-- C9: for vectors with non-negative entries — every vector the program
produces is a bag-of-words count vector, per the Vector invariant of spec
section 3 — the value of `cosine_sim` lies in the closed interval
`[0.0, 1.0]`. -/
theorem cosine_sim_mem_unit_interval (a b : List ℝ)
    (ha : ∀ x ∈ a, 0 ≤ x) (hb : ∀ x ∈ b, 0 ≤ x) :
    0 ≤ cosine_sim a b ∧ cosine_sim a b ≤ 1 := by
  rw [cosine_sim]
  split_ifs with h1 h2 h3
  · norm_num
  · norm_num
  · norm_num
  · push_neg at h3
    have hd : 0 ≤ ((a.zip b).map fun p => p.1 * p.2).sum := by
      apply List.sum_nonneg
      intro z hz
      obtain ⟨p, hp, rfl⟩ := List.mem_map.mp hz
      obtain ⟨hpa, hpb⟩ := mem_of_mem_zip hp
      exact mul_nonneg (ha _ hpa) (hb _ hpb)
    have hA := sum_sq_nonneg a
    have hB := sum_sq_nonneg b
    have hna : 0 < Real.sqrt ((a.map fun x => x * x).sum) :=
      lt_of_le_of_ne (Real.sqrt_nonneg _) (Ne.symm h3.1)
    have hnb : 0 < Real.sqrt ((b.map fun y => y * y).sum) :=
      lt_of_le_of_ne (Real.sqrt_nonneg _) (Ne.symm h3.2)
    have hprod : 0 < Real.sqrt ((a.map fun x => x * x).sum) *
        Real.sqrt ((b.map fun y => y * y).sum) := mul_pos hna hnb
    constructor
    · exact div_nonneg hd (le_of_lt hprod)
    · rw [div_le_one hprod]
      rw [← Real.sqrt_mul hA]
      rw [Real.le_sqrt hd (by positivity)]
      exact list_cauchy_schwarz a b

/-- C9 witness at the concrete non-negative vectors `[1]` and `[1]`. -/
theorem cosine_sim_mem_unit_interval_witness :
    (∀ x ∈ [(1 : ℝ)], 0 ≤ x) ∧
    0 ≤ cosine_sim [(1 : ℝ)] [(1 : ℝ)] ∧ cosine_sim [(1 : ℝ)] [(1 : ℝ)] ≤ 1 := by
  have h : ∀ x ∈ [(1 : ℝ)], 0 ≤ x := by
    intro x hx
    rw [List.mem_singleton] at hx
    rw [hx]
    norm_num
  exact ⟨h, cosine_sim_mem_unit_interval [(1 : ℝ)] [(1 : ℝ)] h h⟩

/-! ### Lemmas about tokenization and normalization -/

/-- A string built from a non-empty character list is not the empty
string. -/
theorem string_mk_ne_empty {l : List Char} (h : l ≠ []) : String.mk l ≠ "" := by
  intro hc
  apply h
  have hdata := congrArg String.data hc
  simpa using hdata

/-- Splitting started with a non-empty current run never produces an
empty token list. -/
theorem splitRunsAux_ne_nil (p : Char → Bool) :
    ∀ (cs acc : List Char), acc ≠ [] → splitRunsAux p cs acc ≠ [] := by
  intro cs
  induction cs with
  | nil =>
    intro acc hacc
    simp only [splitRunsAux, if_neg hacc]
    exact List.cons_ne_nil _ _
  | cons c cs ih =>
    intro acc hacc
    rw [splitRunsAux]
    by_cases hp : p c
    · rw [if_pos hp]
      exact ih (c :: acc) (List.cons_ne_nil c acc)
    · rw [if_neg hp, if_neg hacc]
      exact List.cons_ne_nil _ _

/-- The word split is empty exactly when no character satisfies the run
predicate. -/
theorem splitRuns_eq_nil_iff (p : Char → Bool) :
    ∀ (cs : List Char), splitRuns p cs = [] ↔ ∀ c ∈ cs, p c = false := by
  intro cs
  induction cs with
  | nil => simp [splitRuns, splitRunsAux]
  | cons c cs ih =>
    rw [splitRuns, splitRunsAux]
    by_cases hp : p c
    · rw [if_pos hp]
      constructor
      · intro h
        exact absurd h (splitRunsAux_ne_nil p cs [c] (List.cons_ne_nil c []))
      · intro h
        exact absurd hp (by simpa using h c (List.mem_cons_self c cs))
    · rw [if_neg hp, if_pos rfl]
      rw [splitRuns] at ih
      rw [ih]
      constructor
      · intro h c' hc'
        rcases List.mem_cons.mp hc' with hc' | hc'
        · rw [hc']
          exact Bool.eq_false_iff.mpr hp
        · exact h c' hc'
      · intro h c' hc'
        exact h c' (List.mem_cons_of_mem c hc')

/-- Every token produced by the word split is a non-empty string. -/
theorem splitRunsAux_tokens_ne_empty (p : Char → Bool) :
    ∀ (cs acc : List Char), ∀ s ∈ splitRunsAux p cs acc, s ≠ "" := by
  intro cs
  induction cs with
  | nil =>
    intro acc s hs
    by_cases hacc : acc = []
    · rw [splitRunsAux, if_pos hacc] at hs
      exact absurd hs (List.not_mem_nil s)
    · rw [splitRunsAux, if_neg hacc] at hs
      rw [List.mem_singleton] at hs
      rw [hs]
      exact string_mk_ne_empty (by simpa using hacc)
  | cons c cs ih =>
    intro acc s hs
    rw [splitRunsAux] at hs
    by_cases hp : p c
    · rw [if_pos hp] at hs
      exact ih (c :: acc) s hs
    · rw [if_neg hp] at hs
      by_cases hacc : acc = []
      · rw [if_pos hacc] at hs
        exact ih [] s hs
      · rw [if_neg hacc] at hs
        rcases List.mem_cons.mp hs with hs | hs
        · rw [hs]
          exact string_mk_ne_empty (by simpa using hacc)
        · exact ih [] s hs

/-- When every processed token is a non-empty stopword, the loop of
`normalize_tokens` leaves `out` untouched and appends every token to
`all_stopwords`. -/
theorem foldl_normStep_all_stop (sw : List String)
    (lem : Option (String → String)) :
    ∀ (l : List String) (acc : List String × List String),
    (∀ t ∈ l, t ≠ "" ∧ t ∈ sw) →
    l.foldl (normStep sw lem) acc = (acc.1, acc.2 ++ l) := by
  intro l
  induction l with
  | nil => intro acc _; simp
  | cons t l ih =>
    intro acc h
    obtain ⟨ht1, ht2⟩ := h t (List.mem_cons_self t l)
    rw [List.foldl_cons]
    rw [show normStep sw lem acc t = (acc.1, acc.2 ++ [t]) by
      rw [normStep, if_neg ht1, if_pos ht2]]
    rw [ih (acc.1, acc.2 ++ [t]) fun t' ht' => h t' (List.mem_cons_of_mem t ht')]
    simp

/-- C4: on a non-empty token list in which every token is a stopword
(stopwords being non-empty strings, per the Token invariant of spec
section 3), `normalize_tokens` does not return the empty sequence: it
returns exactly one token, the first stopword encountered, lemmatized
when a lemmatizer is available. -/
theorem normalize_tokens_all_stopwords (sw : List String)
    (lem : Option (String → String)) (tokens : List String)
    (hne : tokens ≠ []) (hall : ∀ t ∈ tokens, t ∈ sw) (hsw : "" ∉ sw) :
    normalize_tokens sw lem tokens = [applyLem lem (tokens.headD "")] := by
  have hall' : ∀ t ∈ tokens, t ≠ "" ∧ t ∈ sw := fun t ht =>
    ⟨fun h => hsw (h ▸ hall t ht), hall t ht⟩
  have hpass : normPass sw lem tokens = ([], tokens) := by
    rw [normPass, foldl_normStep_all_stop sw lem tokens ([], []) hall']
    simp
  rw [normalize_tokens, if_neg hne, hpass, if_pos ⟨rfl, hne⟩]

/-- C4 witness: the all-stopword input "how are you" (as its token list,
with those three words as the stopword set and no lemmatizer) yields the
single token "how". -/
theorem normalize_tokens_all_stopwords_witness :
    (["how", "are", "you"] : List String) ≠ [] ∧
    normalize_tokens ["how", "are", "you"] none ["how", "are", "you"] =
      [applyLem none ((["how", "are", "you"] : List String).headD "")] :=
  ⟨by decide,
    normalize_tokens_all_stopwords ["how", "are", "you"] none
      ["how", "are", "you"] (by decide) (by decide) (by decide)⟩

/-- Each non-empty token contributes exactly one entry to `out` or to
`all_stopwords`. -/
theorem foldl_normStep_length (sw : List String)
    (lem : Option (String → String)) :
    ∀ (l : List String) (acc : List String × List String),
    (∀ t ∈ l, t ≠ "") →
    (l.foldl (normStep sw lem) acc).1.length +
      (l.foldl (normStep sw lem) acc).2.length =
    acc.1.length + acc.2.length + l.length := by
  intro l
  induction l with
  | nil => intro acc _; simp
  | cons t l ih =>
    intro acc h
    have ht : t ≠ "" := h t (List.mem_cons_self t l)
    rw [List.foldl_cons]
    rw [ih (normStep sw lem acc t) fun t' ht' => h t' (List.mem_cons_of_mem t ht')]
    rw [normStep, if_neg ht]
    by_cases hsw : t ∈ sw
    · rw [if_pos hsw]
      simp
      omega
    · rw [if_neg hsw]
      simp
      omega

/-- A non-empty list of non-empty tokens never normalizes to the empty
sequence. -/
theorem normalize_tokens_ne_nil (sw : List String)
    (lem : Option (String → String)) (tokens : List String)
    (hne : tokens ≠ []) (hnee : ∀ t ∈ tokens, t ≠ "") :
    normalize_tokens sw lem tokens ≠ [] := by
  have hlen := foldl_normStep_length sw lem tokens ([], []) hnee
  rw [normalize_tokens, if_neg hne]
  by_cases hc : (normPass sw lem tokens).1 = [] ∧ (normPass sw lem tokens).2 ≠ []
  · rw [if_pos hc]
    exact List.cons_ne_nil _ _
  · rw [if_neg hc]
    intro h1
    apply hc
    refine ⟨h1, fun h2 => ?_⟩
    rw [normPass] at h1 h2
    rw [h1, h2] at hlen
    simp at hlen
    exact hne (List.length_eq_zero.mp hlen.symm)

/-- C5 counterexample: the punctuation-only input "!!!" is a non-empty
string, yet `preprocess` returns the empty token sequence for it (under
the fallback configuration with no stopwords and no lemmatizer). -/
theorem preprocess_empty_on_nonempty_input :
    ("!!!" : String) ≠ "" ∧ preprocess [] none "!!!" = [] :=
  ⟨by decide, by decide⟩

/-- C5 as amended: `preprocess` returns the empty token sequence exactly
when the lowercased input contains no word character (letter, digit or
underscore) — so the empty string maps to the empty sequence, and every
input containing at least one word character yields a non-empty
sequence. -/
theorem preprocess_eq_nil_iff (sw : List String)
    (lem : Option (String → String)) (text : String) :
    preprocess sw lem text = [] ↔
    ∀ c ∈ text.toList.map Char.toLower, isWordChar c = false := by
  rw [preprocess, simple_tokenize]
  constructor
  · intro h
    by_contra hw
    push_neg at hw
    obtain ⟨c, hc, hwc⟩ := hw
    have hsplit : splitRuns isWordChar (text.toList.map Char.toLower) ≠ [] := by
      intro hnil
      rw [splitRuns_eq_nil_iff] at hnil
      exact hwc (hnil c hc)
    have hnee : ∀ t ∈ splitRuns isWordChar (text.toList.map Char.toLower), t ≠ "" :=
      splitRunsAux_tokens_ne_empty isWordChar (text.toList.map Char.toLower) []
    exact normalize_tokens_ne_nil sw lem _ hsplit hnee h
  · intro h
    rw [(splitRuns_eq_nil_iff isWordChar (text.toList.map Char.toLower)).mpr h]
    rw [normalize_tokens, if_pos rfl]

/-! ### Lemmas about intent detection -/

/-- C6: `detect_intent` checks the greeting triggers before the goodbye
triggers before the thanks triggers, and the first matching category
wins: a greeting match yields "greeting" no matter which later categories
also match (so "hi thanks" yields "greeting", not "thanks"); a goodbye
match yields "goodbye" whenever no greeting matches; a thanks match
yields "thanks" only when neither earlier category matches. -/
theorem detect_intent_priority (text : String) :
    (GREETINGS.any (phraseMatches (intentWords text) (intentChars text)) = true →
      detect_intent text = some "greeting") ∧
    (GREETINGS.any (phraseMatches (intentWords text) (intentChars text)) = false →
     GOODBYES.any (phraseMatches (intentWords text) (intentChars text)) = true →
      detect_intent text = some "goodbye") ∧
    (GREETINGS.any (phraseMatches (intentWords text) (intentChars text)) = false →
     GOODBYES.any (phraseMatches (intentWords text) (intentChars text)) = false →
     THANKS.any (phraseMatches (intentWords text) (intentChars text)) = true →
      detect_intent text = some "thanks") := by
  refine ⟨fun hg => ?_, fun hg hb => ?_, fun hg hb hk => ?_⟩
  · have ht : intentChars text ≠ [] := by
      intro ht
      rw [intentWords, ht] at hg
      exact absurd hg (by decide)
    simp only [detect_intent]
    rw [if_neg ht, if_pos hg]
  · have ht : intentChars text ≠ [] := by
      intro ht
      rw [intentWords, ht] at hb
      exact absurd hb (by decide)
    simp only [detect_intent]
    rw [if_neg ht, if_neg (by rw [hg]; exact Bool.false_ne_true), if_pos hb]
  · have ht : intentChars text ≠ [] := by
      intro ht
      rw [intentWords, ht] at hk
      exact absurd hk (by decide)
    simp only [detect_intent]
    rw [if_neg ht, if_neg (by rw [hg]; exact Bool.false_ne_true),
      if_neg (by rw [hb]; exact Bool.false_ne_true), if_pos hk]

/-- C6 witness: "hi thanks" matches both a greeting trigger and a thanks
trigger, and the result is "greeting". -/
theorem detect_intent_priority_witness :
    GREETINGS.any (phraseMatches (intentWords "hi thanks") (intentChars "hi thanks")) = true ∧
    THANKS.any (phraseMatches (intentWords "hi thanks") (intentChars "hi thanks")) = true ∧
    detect_intent "hi thanks" = some "greeting" :=
  ⟨by decide, by decide, (detect_intent_priority "hi thanks").1 (by decide)⟩

/-- C7: a single-word trigger phrase matches only as a whole token of the
word split — whenever the phrase is not among the word tokens, the match
test fails no matter whether the phrase occurs inside the raw text as a
substring — and, concretely, "this is history" detects no intent at all
even though "hi" occurs inside "history". -/
theorem detect_intent_word_boundary :
    (∀ (ws : List String) (t : List Char) (g : String),
      g.toList.contains ' ' = false → ws.contains g = false →
      phraseMatches ws t g = false) ∧
    detect_intent "this is history" = none := by
  constructor
  · intro ws t g h1 h2
    rw [phraseMatches, if_neg (by rw [h1]; exact Bool.false_ne_true)]
    exact h2
  · decide

/-- C7 witness: "hi" occurs as a substring of "this is history" but not
as a whole token, and the single-word match test for "hi" fails there. -/
theorem detect_intent_word_boundary_witness :
    substrB "hi".toList "this is history".toList = true ∧
    (["this", "is", "history"] : List String).contains "hi" = false ∧
    phraseMatches ["this", "is", "history"] "this is history".toList "hi" = false :=
  ⟨by decide, by decide,
    detect_intent_word_boundary.1 ["this", "is", "history"]
      "this is history".toList "hi" (by decide) (by decide)⟩

/-! ### Lemmas about vocabulary construction -/

/-- The empty-document guard of `build_vocab` is redundant over a fold. -/
theorem addDoc_eq_foldl (v : List String) (doc : List String) :
    addDoc v doc = doc.foldl addToken v := by
  rw [addDoc]
  by_cases h : doc = []
  · rw [if_pos h, h]
    rfl
  · rw [if_neg h]

/-- Folding the documents is folding their concatenation token by
token. -/
theorem foldl_addDoc_join :
    ∀ (docs : List (List String)) (acc : List String),
    docs.foldl addDoc acc = docs.flatten.foldl addToken acc := by
  intro docs
  induction docs with
  | nil => intro acc; rfl
  | cons d docs ih =>
    intro acc
    rw [List.foldl_cons, List.flatten_cons, List.foldl_append, ih, addDoc_eq_foldl]

/-- The token insertion of `build_vocab` equals first-seen insertion over
the non-empty tokens. -/
theorem foldl_addToken_eq_seen :
    ∀ (l : List String) (acc : List String),
    l.foldl addToken acc = (l.filter fun t => t != "").foldl seenStep acc := by
  intro l
  induction l with
  | nil => intro acc; rfl
  | cons t l ih =>
    intro acc
    rw [List.foldl_cons]
    by_cases ht : t = ""
    · rw [show addToken acc t = acc by rw [addToken, if_neg (by simp [ht])]]
      rw [show List.filter (fun t => t != "") (t :: l) = List.filter (fun t => t != "") l by
        rw [List.filter_cons, if_neg (by simp [ht])]]
      exact ih acc
    · rw [show List.filter (fun t => t != "") (t :: l) =
          t :: List.filter (fun t => t != "") l by
        rw [List.filter_cons, if_pos (by simpa using ht)]]
      rw [List.foldl_cons]
      rw [show addToken acc t = seenStep acc t by
        rw [addToken, seenStep]
        by_cases hm : t ∈ acc
        · rw [if_neg (by simp [hm]), if_pos hm]
        · rw [if_pos ⟨ht, hm⟩, if_neg hm]]
      exact ih (seenStep acc t)

/-- First-seen insertion preserves freedom from duplicates. -/
theorem foldl_seenStep_nodup :
    ∀ (l : List String) (acc : List String), acc.Nodup →
    (l.foldl seenStep acc).Nodup := by
  intro l
  induction l with
  | nil => intro acc h; exact h
  | cons t l ih =>
    intro acc h
    rw [List.foldl_cons]
    apply ih
    rw [seenStep]
    by_cases hm : t ∈ acc
    · rw [if_pos hm]
      exact h
    · rw [if_neg hm]
      simp [List.nodup_append, h, hm]

/-- Membership after first-seen insertion. -/
theorem foldl_seenStep_mem :
    ∀ (l : List String) (acc : List String) (x : String),
    x ∈ l.foldl seenStep acc ↔ x ∈ acc ∨ x ∈ l := by
  intro l
  induction l with
  | nil => intro acc x; simp
  | cons t l ih =>
    intro acc x
    rw [List.foldl_cons, ih]
    rw [seenStep]
    by_cases hm : t ∈ acc
    · rw [if_pos hm]
      constructor
      · rintro (h | h)
        · exact Or.inl h
        · exact Or.inr (List.mem_cons_of_mem t h)
      · rintro (h | h)
        · exact Or.inl h
        · rcases List.mem_cons.mp h with h | h
          · exact Or.inl (h ▸ hm)
          · exact Or.inr h
    · rw [if_neg hm]
      simp only [List.mem_append, List.mem_singleton, List.mem_cons]
      tauto

/-- C8: `build_vocab` represents a bijective mapping from the distinct
non-empty tokens of the documents onto the indices `0, 1, ..., size-1`
(a token list without duplicates, the index of a token being its
position, so indices are contiguous from 0 with no gaps), assigned in
first-seen order over the documents in their given order; empty
documents are skipped without effect. -/
theorem build_vocab_first_seen_bijection (docs : List (List String)) :
    (build_vocab docs).Nodup ∧
    (∀ t ∈ build_vocab docs, t ≠ "") ∧
    (∀ t, t ∈ build_vocab docs ↔ (t ≠ "" ∧ ∃ d ∈ docs, t ∈ d)) ∧
    build_vocab docs = firstSeen (docs.flatten.filter fun t => t != "") ∧
    build_vocab ([] :: docs) = build_vocab docs := by
  have hrepr : build_vocab docs = firstSeen (docs.flatten.filter fun t => t != "") := by
    rw [build_vocab, foldl_addDoc_join, foldl_addToken_eq_seen, firstSeen]
  refine ⟨?_, ?_, ?_, hrepr, ?_⟩
  · rw [hrepr, firstSeen]
    exact foldl_seenStep_nodup _ [] List.nodup_nil
  · intro t ht
    rw [hrepr, firstSeen, foldl_seenStep_mem] at ht
    rcases ht with ht | ht
    · exact absurd ht (List.not_mem_nil t)
    · have := List.mem_filter.mp ht
      simpa using this.2
  · intro t
    rw [hrepr, firstSeen, foldl_seenStep_mem]
    simp only [List.not_mem_nil, false_or, List.mem_filter, List.mem_flatten, bne_iff_ne,
      ne_eq]
    constructor
    · rintro ⟨⟨d, hd, htd⟩, hne⟩
      exact ⟨hne, d, hd, htd⟩
    · rintro ⟨hne, d, hd, htd⟩
      exact ⟨⟨d, hd, htd⟩, hne⟩
  · rw [build_vocab, build_vocab, List.foldl_cons]
    rfl

end Chatbot
